import Mathlib

/-!
Shallow embedding of `src/src/barycentric.cpp` (barycentric Lagrange
interpolation kernel of a Parks-McClellan filter design implementation),
over exact rational arithmetic.  Machine `mpfr::mpreal` / `double` values
are modelled as `ℚ`; the loops of the C++ functions are modelled as folds
and structural recursions that visit the same indices in the same order.
-/

/-- Modelled from the spec: the coordinate-space selector enum carried by a
band (`band.h` is not part of the visible sources). -/
inductive Space where
  | freq : Space
  | transformed : Space

/-- Modelled from the spec: a frequency band `{start, stop}` with its ideal
amplitude and weight functions of position, and the coordinate-space flag
(`band.h` is not part of the visible sources; the kernel only reads
`start`, `stop` and calls `amplitude(space, x)` / `weight(space, x)`). -/
structure Band where
  start : ℚ
  stop : ℚ
  space : Space
  amplitude : Space → ℚ → ℚ
  weight : Space → ℚ → ℚ

/-- `computeIdealResponseAndWeight(D, W, xVal, bands)`: linear scan of the
bands; the first band with `start ≤ xVal ≤ stop` determines the returned
ideal amplitude and weight.  The C++ assigns to the by-reference output
parameters `D`, `W` and returns; when no band matches it returns without
assigning, so the entry values of `D` and `W` are kept.  The entry values
are threaded explicitly. -/
def computeIdealResponseAndWeight (D W xVal : ℚ) (bands : List Band) : ℚ × ℚ :=
  match bands with
  | [] => (D, W)
  | b :: rest =>
      if b.start ≤ xVal ∧ xVal ≤ b.stop then
        (b.amplitude b.space xVal, b.weight b.space xVal)
      else
        computeIdealResponseAndWeight D W xVal rest

/-- The ideal amplitude/weight lookup as used with freshly zero-initialised
output variables (`D = W = 0;` before the call in the C++ callers). -/
def idealDW (xVal : ℚ) (bands : List Band) : ℚ × ℚ :=
  computeIdealResponseAndWeight 0 0 xVal bands

/-- The stride of the grouped product in `barycentricWeights`:
`std::size_t step = (x.size() - 2) / 15 + 1;` (truncating natural
division, as in C++ for `n ≥ 2`). -/
def stepOf (n : ℕ) : ℕ :=
  (n - 2) / 15 + 1

/-- The index sequence visited by the two nested loops
`for (j = 0; j < step; ++j) for (k = j; k < n; k += step) if (k != i)`
of `barycentricWeights`: group `j` visits, in increasing order, exactly the
indices `k < n` with `k % step = j`, skipping `k = i`. -/
def groupedIndices (n step i : ℕ) : List ℕ :=
  (List.range step).flatMap fun j =>
    (List.range n).filter fun k => decide (k % step = j ∧ k ≠ i)

/-- `barycentricWeights(w, x)`: for each `i`, accumulate
`denom *= ((x[i] - x[k]) << 1)` over the grouped index order and set
`w[i] = 1 / denom`. -/
def barycentricWeights (x : List ℚ) : List ℚ :=
  let n := x.length
  let step := stepOf n
  (List.range n).map fun i =>
    let xi := x.getD i 0
    let denom := (groupedIndices n step i).foldl
      (fun acc k => acc * ((xi - x.getD k 0) * 2)) 1
    1 / denom

/-- One iteration of the accumulation loop of `computeDelta`; the state is
`(num, denom, D, W)`, where `D`, `W` are the by-reference lookup outputs
that persist across iterations.  `num = fma(w[i], D, num)`;
`buffer = w[i] / W` is negated when `i` is even and added to `denom`. -/
def deltaStep (w x : List ℚ) (bands : List Band)
    (s : ℚ × ℚ × ℚ × ℚ) (i : ℕ) : ℚ × ℚ × ℚ × ℚ :=
  let DW := computeIdealResponseAndWeight s.2.2.1 s.2.2.2 (x.getD i 0) bands
  let num := w.getD i 0 * DW.1 + s.1
  let buffer := w.getD i 0 / DW.2
  let buffer := if i % 2 = 0 then -buffer else buffer
  (num, s.2.1 + buffer, DW.1, DW.2)

/-- `computeDelta(delta, w, x, bands)` (the overload taking precomputed
weights): run the accumulation loop over `i < w.size()` starting from
`num = denom = D = W = 0`, then `delta = num / denom`. -/
def computeDeltaW (w x : List ℚ) (bands : List Band) : ℚ :=
  let s := (List.range w.length).foldl (deltaStep w x bands) (0, 0, 0, 0)
  s.1 / s.2.1

/-- `computeDelta(delta, x, bands)` (the overload taking only nodes): it
first computes `barycentricWeights(w, x)` into a vector of size
`x.size()` and then runs the identical accumulation loop, i.e. it agrees
with the weight-taking overload applied to those weights. -/
def computeDelta (x : List ℚ) (bands : List Band) : ℚ :=
  computeDeltaW (barycentricWeights x) x bands

/-- One iteration of `computeC`: look up `(D, W)` (threaded by-reference
state), then `if (i % 2 != 0) W = -W;` and append `C[i] = D + delta / W`.
The state keeps the post-negation `W`, exactly as the C++ variable does. -/
def computeCStep (delta : ℚ) (omega : List ℚ) (bands : List Band)
    (s : (ℚ × ℚ) × List ℚ) (i : ℕ) : (ℚ × ℚ) × List ℚ :=
  let DW := computeIdealResponseAndWeight s.1.1 s.1.2 (omega.getD i 0) bands
  let W := if i % 2 ≠ 0 then -DW.2 else DW.2
  ((DW.1, W), s.2 ++ [DW.1 + delta / W])

/-- `computeC(C, delta, omega, bands)`: loop over `i < omega.size()` with
`D = W = 0` initially, producing the response vector. -/
def computeC (delta : ℚ) (omega : List ℚ) (bands : List Band) : List ℚ :=
  ((List.range omega.length).foldl (computeCStep delta omega bands) ((0, 0), [])).2

/-- The loop of `computeApprox` over the remaining index list: at index `i`,
if the query point equals `x[i]` return `C[i]` at once (early return);
otherwise `buff = w[i] / (q - x[i])`, `num = fma(buff, C[i], num)`,
`denom += buff` and continue; after the loop return `num / denom`. -/
def approxGo (q : ℚ) (x C w : List ℚ) : List ℕ → ℚ → ℚ → ℚ
  | [], num, denom => num / denom
  | i :: rest, num, denom =>
      if q = x.getD i 0 then C.getD i 0
      else
        approxGo q x C w rest
          (w.getD i 0 / (q - x.getD i 0) * C.getD i 0 + num)
          (denom + w.getD i 0 / (q - x.getD i 0))

/-- `computeApprox(Pc, omega, x, C, w)`: the loop above over
`i = 0, ..., x.size() - 1` with `num = denom = 0`. -/
def computeApprox (q : ℚ) (x C w : List ℚ) : ℚ :=
  approxGo q x C w (List.range x.length) 0 0

/-- `computeError(error, xVal, delta, x, C, w, bands)`: first scan the nodes
in index order; at the first `i` with `xVal == x[i]` return `delta`
(`i` even) or `-delta` (`i` odd).  Otherwise `D = W = 0`, look up the
ideal amplitude and weight at `xVal`, evaluate the interpolant, and return
`(approx - D) * W`. -/
def computeError (xVal delta : ℚ) (x C w : List ℚ) (bands : List Band) : ℚ :=
  match (List.range x.length).find? (fun i => decide (xVal = x.getD i 0)) with
  | some i => if i % 2 = 0 then delta else -delta
  | none =>
      let DW := idealDW xVal bands
      (computeApprox xVal x C w - DW.1) * DW.2

/-- Ambient-precision semantics of `barycentricWeights(w, x, prec)`: given
the ambient default precision at entry, the function saves it
(`prevPrec = mpreal::get_default_prec()`), installs `prec`, runs a loop
with no early exit, and restores `prevPrec`; the result is the ambient
precision at exit. -/
def barycentricWeightsPrecFinal (x : List ℚ) (prec ambient : ℕ) : ℕ :=
  let prevPrec := ambient
  let _installed := prec
  let _ := x
  prevPrec

/-- Ambient-precision semantics of the node-taking `computeDelta` overload:
save the ambient precision, install `prec`, call
`barycentricWeights(w, x)` (which itself installs and restores its default
precision of 165 bits), run the loop, restore. -/
def computeDeltaPrecFinal (x : List ℚ) (prec ambient : ℕ) : ℕ :=
  let prevPrec := ambient
  let innerAmbient := barycentricWeightsPrecFinal x 165 prec
  let _ := innerAmbient
  prevPrec

/-- Ambient-precision semantics of the weight-taking `computeDelta`
overload: save, install `prec`, loop without early exit, restore. -/
def computeDeltaWPrecFinal (w x : List ℚ) (prec ambient : ℕ) : ℕ :=
  let prevPrec := ambient
  let _installed := prec
  let _ := (w, x)
  prevPrec

/-- Ambient-precision semantics of `computeC`: save, install `prec`, loop
without early exit, restore. -/
def computeCPrecFinal (omega : List ℚ) (prec ambient : ℕ) : ℕ :=
  let prevPrec := ambient
  let _installed := prec
  let _ := omega
  prevPrec

/-- Ambient-precision semantics of `computeApprox`: save, install `prec`;
if some node matches the query point the function restores `prevPrec` and
returns early; otherwise it finishes the loop and restores `prevPrec`. -/
def computeApproxPrecFinal (q : ℚ) (x : List ℚ) (prec ambient : ℕ) : ℕ :=
  let prevPrec := ambient
  let _installed := prec
  match (List.range x.length).find? (fun i => decide (q = x.getD i 0)) with
  | some _ => prevPrec
  | none => prevPrec

/-- Ambient-precision semantics of `computeError`: save, install `prec`; on
an exact node match restore `prevPrec` and return early; otherwise call
`computeApprox` (with its default precision of 165 bits) and restore
`prevPrec` at the end. -/
def computeErrorPrecFinal (xVal : ℚ) (x : List ℚ) (prec ambient : ℕ) : ℕ :=
  let prevPrec := ambient
  match (List.range x.length).find? (fun i => decide (xVal = x.getD i 0)) with
  | some _ => prevPrec
  | none =>
      let innerAmbient := computeApproxPrecFinal xVal x 165 prec
      let _ := innerAmbient
      prevPrec

/-- A concrete band covering `[0, 1]` with constant unit amplitude and
weight, used to instantiate hypotheses at concrete inputs. -/
def bandUnit : Band :=
  { start := 0, stop := 1, space := Space.freq
    amplitude := fun _ _ => 1, weight := fun _ _ => 1 }

/-- Index access of a list via `getD` agrees with `getElem` in bounds. -/
lemma getD_eq_elem (x : List ℚ) (i : ℕ) (h : i < x.length) :
    x.getD i 0 = x[i] := by
  simp [List.getD_eq_getElem?_getD, List.getElem?_eq_getElem h]

/-- In a list with no duplicate entries, distinct valid indices hold
distinct values. -/
lemma getD_ne_of_nodup (x : List ℚ) (hd : x.Nodup) (i j : ℕ)
    (hi : i < x.length) (hj : j < x.length) (hij : i ≠ j) :
    x.getD i 0 ≠ x.getD j 0 := by
  rw [getD_eq_elem x i hi, getD_eq_elem x j hj]
  intro h
  exact hij ((hd.getElem_inj_iff).1 h)

/-- A multiplicative left fold over a list of indices is the product of the
mapped factors. -/
lemma foldl_mul_map (f : ℕ → ℚ) :
    ∀ (l : List ℕ) (a : ℚ), l.foldl (fun acc k => acc * f k) a = a * (l.map f).prod
  | [], a => by simp
  | k :: l, a => by
      simp [foldl_mul_map f l, mul_assoc]

/-- The grouped index order of `barycentricWeights` visits exactly the
indices `k < n` with `k ≠ i`, each exactly once. -/
lemma groupedIndices_perm (n step i : ℕ) (hstep : 0 < step) :
    (groupedIndices n step i).Perm ((List.range n).filter fun k => decide (k ≠ i)) := by
  apply List.perm_of_nodup_nodup_toFinset_eq
  · refine List.nodup_flatMap.2 ⟨fun j _ => (List.nodup_range n).filter _, ?_⟩
    refine (List.pairwise_lt_range step).imp ?_
    intro a b hab k hka hkb
    have ha : k % step = a ∧ ¬k = i := by
      have := (List.mem_filter.1 hka).2
      simpa using this
    have hb : k % step = b ∧ ¬k = i := by
      have := (List.mem_filter.1 hkb).2
      simpa using this
    omega
  · exact (List.nodup_range n).filter _
  · ext a
    simp only [List.mem_toFinset, groupedIndices, List.mem_flatMap, List.mem_filter,
      List.mem_range, decide_eq_true_eq]
    constructor
    · rintro ⟨j, hj, ⟨han, hmod, hai⟩⟩
      exact ⟨han, hai⟩
    · rintro ⟨han, hai⟩
      exact ⟨a % step, Nat.mod_lt a hstep, han, ⟨rfl, hai⟩⟩

/-- The straight-through denominator product `Π_{k ≠ i} 2 (x_i - x_k)` that
the specification describes for `barycentricWeights`. -/
def straightDenom (x : List ℚ) (i : ℕ) : ℚ :=
  (((List.range x.length).filter fun k => decide (k ≠ i)).map
    (fun k => (x.getD i 0 - x.getD k 0) * 2)).prod

/-- The grouped accumulation of `barycentricWeights` computes, in exact
arithmetic, the reciprocal of the straight product over all `k ≠ i`. -/
lemma barycentricWeights_getD (x : List ℚ) (i : ℕ) (hi : i < x.length) :
    (barycentricWeights x).getD i 0 = 1 / straightDenom x i := by
  have hstep : 0 < stepOf x.length := Nat.succ_pos _
  have hlen : (barycentricWeights x).length = x.length := by
    simp [barycentricWeights]
  have hi2 : i < (barycentricWeights x).length := by omega
  rw [getD_eq_elem _ i hi2]
  simp only [barycentricWeights, List.getElem_map, List.getElem_range]
  rw [foldl_mul_map, one_mul]
  rw [((groupedIndices_perm x.length (stepOf x.length) i hstep).map
    (fun k => (x.getD i 0 - x.getD k 0) * 2)).prod_eq]
  rfl

/-- The weight vector has the same length as the node vector. -/
lemma barycentricWeights_length (x : List ℚ) :
    (barycentricWeights x).length = x.length := by
  simp [barycentricWeights]

/-- Claim C3: for every node set of length at least 2 with pairwise-distinct
entries, barycentricWeights produces for each index i the weight
`1 / Π_{k ≠ i} 2 (x_i - x_k)` — the grouped accumulation equals the
straight product in exact arithmetic — and no weight entry is zero. -/
theorem claim_C3 (x : List ℚ) (hn : 2 ≤ x.length) (hd : x.Nodup) :
    ∀ i < x.length,
      (barycentricWeights x).getD i 0 = 1 / straightDenom x i ∧
      (barycentricWeights x).getD i 0 ≠ 0 := by
  intro i hi
  have h1 := barycentricWeights_getD x i hi
  have hden : straightDenom x i ≠ 0 := by
    refine List.prod_ne_zero ?_
    intro h0
    rcases List.mem_map.1 h0 with ⟨k, hk, hk0⟩
    rcases List.mem_filter.1 hk with ⟨hkr, hkne⟩
    have hkn : k < x.length := List.mem_range.1 hkr
    have hkne' : k ≠ i := by simpa using hkne
    have hne := getD_ne_of_nodup x hd i k hi hkn (fun h => hkne' h.symm)
    apply hne
    have h2 : x.getD i 0 - x.getD k 0 = 0 := by
      rcases mul_eq_zero.1 hk0 with h | h
      · exact h
      · exact absurd h (by norm_num)
    exact sub_eq_zero.1 h2
  exact ⟨h1, by rw [h1]; exact one_div_ne_zero hden⟩

/-- Instantiation of claim C3 at the concrete node set `[0, 1]`. -/
theorem claim_C3_witness :
    2 ≤ ([0, 1] : List ℚ).length ∧ ([0, 1] : List ℚ).Nodup ∧
      ((barycentricWeights [0, 1]).getD 0 0 = 1 / straightDenom [0, 1] 0 ∧
        (barycentricWeights [0, 1]).getD 0 0 ≠ 0) :=
  ⟨by decide, by decide, claim_C3 [0, 1] (by decide) (by decide) 0 (by decide)⟩

/-- Counterexample to claim C4: at n = 17 the stride used by
barycentricWeights is `stepOf 17 = 2`, while `ceil((17 - 2) / 15) = 1`. -/
theorem claim_C4_cex : stepOf 17 = 2 ∧ (17 - 2 + 14) / 15 = 1 ∧ (2 : ℕ) ≠ 1 := by
  decide

/-- Claim C4 (amended): for every n ≥ 2 the stride used by the grouped
product of barycentricWeights equals `floor((n - 2) / 15) + 1`; this
coincides with `ceil((n - 2) / 15)` exactly when 15 does not divide
n - 2, and exceeds it by one when 15 divides n - 2 (including n = 2). -/
theorem claim_C4_amended (n : ℕ) (hn : 2 ≤ n) :
    stepOf n = (n - 2) / 15 + 1 ∧
      (stepOf n = (n - 2 + 14) / 15 ↔ ¬ (15 ∣ (n - 2))) := by
  refine ⟨rfl, ?_⟩
  unfold stepOf
  constructor <;> intro h <;> omega

/-- Instantiation of the amended claim C4 at n = 18. -/
theorem claim_C4_amended_witness :
    2 ≤ 18 ∧
      (stepOf 18 = (18 - 2) / 15 + 1 ∧
        (stepOf 18 = (18 - 2 + 14) / 15 ↔ ¬ (15 ∣ (18 - 2)))) :=
  ⟨by decide, claim_C4_amended 18 (by decide)⟩

/-- Mapping a pointwise constant factor out of a product over a list of
indices. -/
lemma prod_map_mul_const (k : ℚ) (g : ℕ → ℚ) :
    ∀ l : List ℕ, (l.map fun t => k * g t).prod = k ^ l.length * (l.map g).prod
  | [] => by simp
  | a :: l => by
      simp only [List.map_cons, List.prod_cons, prod_map_mul_const k g l,
        List.length_cons, pow_succ]
      ring

/-- The straight product over all `k ≠ i` has `n - 1` factors. -/
lemma length_filter_ne (n i : ℕ) (hi : i < n) :
    ((List.range n).filter fun k => decide (k ≠ i)).length = n - 1 := by
  induction n with
  | zero => omega
  | succ m ih =>
      rw [List.range_succ, List.filter_append]
      by_cases hmi : i = m
      · subst hmi
        have h1 : (List.range i).filter (fun k => decide (k ≠ i)) = List.range i := by
          refine List.filter_eq_self.2 ?_
          intro a ha
          have : a < i := List.mem_range.1 ha
          simp only [decide_eq_true_eq]
          omega
        have h2 : ([i].filter fun k => decide (k ≠ i)) = [] := by simp
        rw [h1, h2]
        simp
      · have hi' : i < m := by omega
        have h2 : ([m].filter fun k => decide (k ≠ i)) = [m] := by
          simp [Ne.symm hmi]
        rw [h2, List.length_append, ih hi']
        simp
        omega

/-- `getD` commutes with pointwise scaling of the list, in bounds. -/
lemma getD_map_mul (x : List ℚ) (k : ℚ) (j : ℕ) (hj : j < x.length) :
    (x.map fun t => k * t).getD j 0 = k * x.getD j 0 := by
  have hj' : j < (x.map fun t => k * t).length := by simpa using hj
  rw [getD_eq_elem _ j hj', getD_eq_elem x j hj, List.getElem_map]

/-- Scaling all nodes by k scales the straight denominator product by
`k ^ (n - 1)`. -/
lemma straightDenom_scale (x : List ℚ) (k : ℚ) (i : ℕ) (hi : i < x.length) :
    straightDenom (x.map fun t => k * t) i = k ^ (x.length - 1) * straightDenom x i := by
  unfold straightDenom
  simp only [List.length_map]
  have hcong : (((List.range x.length).filter fun j => decide (j ≠ i)).map
      fun j => ((x.map fun t => k * t).getD i 0 - (x.map fun t => k * t).getD j 0) * 2) =
      ((List.range x.length).filter fun j => decide (j ≠ i)).map
        fun j => k * ((x.getD i 0 - x.getD j 0) * 2) := by
    apply List.map_congr_left
    intro a ha
    have han : a < x.length := List.mem_range.1 (List.mem_filter.1 ha).1
    rw [getD_map_mul x k i hi, getD_map_mul x k a han]
    ring
  rw [hcong, prod_map_mul_const, length_filter_ne x.length i hi]

/-- Claim C8: each barycentric weight of the node set scaled by a nonzero
constant k equals the corresponding weight of the original node set
divided by `k ^ (n - 1)`, in exact arithmetic. -/
theorem claim_C8 (x : List ℚ) (k : ℚ) (hn : 2 ≤ x.length) (hd : x.Nodup)
    (hk : k ≠ 0) :
    ∀ i < x.length,
      (barycentricWeights (x.map fun t => k * t)).getD i 0 =
        (barycentricWeights x).getD i 0 / k ^ (x.length - 1) := by
  intro i hi
  have hi' : i < (x.map fun t => k * t).length := by simpa using hi
  rw [barycentricWeights_getD _ i hi', barycentricWeights_getD x i hi]
  have hlen : (x.map fun t => k * t).length = x.length := by simp
  rw [show straightDenom (x.map fun t => k * t) i =
      k ^ (x.length - 1) * straightDenom x i from straightDenom_scale x k i hi]
  rw [one_div, one_div, mul_inv, div_eq_mul_inv, mul_comm]

/-- Instantiation of claim C8 at the node set `[0, 1]` and k = 2. -/
theorem claim_C8_witness :
    2 ≤ ([0, 1] : List ℚ).length ∧ ([0, 1] : List ℚ).Nodup ∧ (2 : ℚ) ≠ 0 ∧
      (barycentricWeights (([0, 1] : List ℚ).map fun t => 2 * t)).getD 0 0 =
        (barycentricWeights [0, 1]).getD 0 0 / 2 ^ (([0, 1] : List ℚ).length - 1) :=
  ⟨by decide, by decide, by decide,
    claim_C8 [0, 1] 2 (by decide) (by decide) (by decide) 0 (by decide)⟩

/-- Claim C10: when the query coordinate lies outside every band, the
lookup returns without assigning its output parameters, which keep their
entry values. -/
theorem claim_C10 (D W xVal : ℚ) (bands : List Band)
    (h : ∀ b ∈ bands, xVal < b.start ∨ b.stop < xVal) :
    computeIdealResponseAndWeight D W xVal bands = (D, W) := by
  induction bands with
  | nil => rfl
  | cons b rest ih =>
      have hb := h b (by simp)
      have hcond : ¬ (b.start ≤ xVal ∧ xVal ≤ b.stop) := by
        rcases hb with h1 | h1
        · intro hc; linarith [hc.1]
        · intro hc; linarith [hc.2]
      simp only [computeIdealResponseAndWeight, if_neg hcond]
      exact ih fun b' hb' => h b' (by simp [hb'])

/-- Instantiation of claim C10: the query point 2 lies outside the band
`[0, 1]`, so the lookup keeps the entry values (5, 7). -/
theorem claim_C10_witness :
    (∀ b ∈ [bandUnit], (2 : ℚ) < b.start ∨ b.stop < 2) ∧
      computeIdealResponseAndWeight 5 7 2 [bandUnit] = (5, 7) := by
  have h : ∀ b ∈ [bandUnit], (2 : ℚ) < b.start ∨ b.stop < 2 := by
    intro b hb
    rw [List.mem_singleton] at hb
    subst hb
    right
    norm_num [bandUnit]
  exact ⟨h, claim_C10 5 7 2 [bandUnit] h⟩

/-- When the query point is covered by some band, the lookup result does
not depend on the entry values of the output parameters. -/
lemma cirw_covered (D W xVal : ℚ) (bands : List Band)
    (h : ∃ b ∈ bands, b.start ≤ xVal ∧ xVal ≤ b.stop) :
    computeIdealResponseAndWeight D W xVal bands = idealDW xVal bands := by
  induction bands with
  | nil =>
      rcases h with ⟨b, hb, _⟩
      cases hb
  | cons b rest ih =>
      by_cases hc : b.start ≤ xVal ∧ xVal ≤ b.stop
      · simp only [computeIdealResponseAndWeight, idealDW, if_pos hc]
      · have h' : ∃ b' ∈ rest, b'.start ≤ xVal ∧ xVal ≤ b'.stop := by
          rcases h with ⟨b', hb', hcond⟩
          rcases List.mem_cons.1 hb' with rfl | hmem
          · exact absurd hcond hc
          · exact ⟨b', hmem, hcond⟩
        have e1 : computeIdealResponseAndWeight D W xVal (b :: rest) =
            computeIdealResponseAndWeight D W xVal rest := by
          simp only [computeIdealResponseAndWeight, if_neg hc]
        have e2 : idealDW xVal (b :: rest) = idealDW xVal rest := by
          simp only [idealDW, computeIdealResponseAndWeight, if_neg hc]
        rw [e1, e2]
        exact ih h'

/-- The accumulation loop of computeDelta over the first m indices computes
the partial numerator and signed denominator sums, when every node lies in
some band. -/
lemma deltaFold_sums (w x : List ℚ) (bands : List Band)
    (hcov : ∀ xi ∈ x, ∃ b ∈ bands, b.start ≤ xi ∧ xi ≤ b.stop) :
    ∀ m, m ≤ x.length →
      ((List.range m).foldl (deltaStep w x bands) (0, 0, 0, 0)).1 =
        (∑ i ∈ Finset.range m, w.getD i 0 * (idealDW (x.getD i 0) bands).1) ∧
      ((List.range m).foldl (deltaStep w x bands) (0, 0, 0, 0)).2.1 =
        (∑ i ∈ Finset.range m,
          (if i % 2 = 0 then (-1 : ℚ) else 1) *
            (w.getD i 0 / (idealDW (x.getD i 0) bands).2)) := by
  intro m
  induction m with
  | zero => intro _; simp
  | succ p ih =>
      intro hm
      have hp : p ≤ x.length := by omega
      obtain ⟨ih1, ih2⟩ := ih hp
      rw [List.range_succ, List.foldl_append, List.foldl_cons, List.foldl_nil]
      set s := (List.range p).foldl (deltaStep w x bands) (0, 0, 0, 0) with hs
      have hxp : x.getD p 0 ∈ x := by
        rw [getD_eq_elem x p (by omega)]
        exact List.getElem_mem _
      have hc := cirw_covered s.2.2.1 s.2.2.2 (x.getD p 0) bands (hcov _ hxp)
      constructor
      · show (deltaStep w x bands s p).1 = _
        simp only [deltaStep, hc]
        rw [Finset.sum_range_succ, ih1]
        ring
      · show (deltaStep w x bands s p).2.1 = _
        simp only [deltaStep, hc]
        rw [Finset.sum_range_succ, ih2]
        by_cases hpar : p % 2 = 0
        · simp [hpar]
        · simp [hpar]

/-- Claim C1: for a reference node set whose every node lies inside some
band, computeDelta returns num / denom with
`num = Σ_i w_i D_i`, `denom = Σ_i sign_i (w_i / W_i)`,
`sign_i = -1` for even i and `+1` for odd i, where w are the barycentric
weights of x and (D_i, W_i) the ideal amplitude and weight at x_i. -/
theorem claim_C1 (x : List ℚ) (bands : List Band) (hn : 2 ≤ x.length)
    (hcov : ∀ xi ∈ x, ∃ b ∈ bands, b.start ≤ xi ∧ xi ≤ b.stop) :
    computeDelta x bands =
      (∑ i ∈ Finset.range x.length,
        (barycentricWeights x).getD i 0 * (idealDW (x.getD i 0) bands).1) /
      (∑ i ∈ Finset.range x.length,
        (if i % 2 = 0 then (-1 : ℚ) else 1) *
          ((barycentricWeights x).getD i 0 / (idealDW (x.getD i 0) bands).2)) := by
  obtain ⟨h1, h2⟩ :=
    deltaFold_sums (barycentricWeights x) x bands hcov x.length le_rfl
  simp only [computeDelta, computeDeltaW, barycentricWeights_length]
  rw [h1, h2]

/-- Every node of `[0, 1]` lies in the unit band. -/
lemma cov01 : ∀ xi ∈ ([0, 1] : List ℚ),
    ∃ b ∈ [bandUnit], b.start ≤ xi ∧ xi ≤ b.stop := by
  intro xi hxi
  refine ⟨bandUnit, by simp, ?_⟩
  rcases List.mem_cons.1 hxi with rfl | hxi'
  · norm_num [bandUnit]
  · rw [List.mem_singleton] at hxi'
    subst hxi'
    norm_num [bandUnit]

/-- Instantiation of claim C1 at the node set `[0, 1]` over the unit band. -/
theorem claim_C1_witness :
    2 ≤ ([0, 1] : List ℚ).length ∧
      computeDelta [0, 1] [bandUnit] =
        (∑ i ∈ Finset.range ([0, 1] : List ℚ).length,
          (barycentricWeights [0, 1]).getD i 0 *
            (idealDW (([0, 1] : List ℚ).getD i 0) [bandUnit]).1) /
        (∑ i ∈ Finset.range ([0, 1] : List ℚ).length,
          (if i % 2 = 0 then (-1 : ℚ) else 1) *
            ((barycentricWeights [0, 1]).getD i 0 /
              (idealDW (([0, 1] : List ℚ).getD i 0) [bandUnit]).2)) :=
  ⟨by decide, claim_C1 [0, 1] [bandUnit] (by decide) cov01⟩

/-- The loop of computeC over the first m indices produces exactly the
response values `D_i + delta / W_i'` (sign of W flipped at odd i), when
every node lies in some band. -/
lemma computeCFold_sums (delta : ℚ) (omega : List ℚ) (bands : List Band)
    (hcov : ∀ xi ∈ omega, ∃ b ∈ bands, b.start ≤ xi ∧ xi ≤ b.stop) :
    ∀ m, m ≤ omega.length →
      ((List.range m).foldl (computeCStep delta omega bands) ((0, 0), [])).2 =
        (List.range m).map fun i =>
          (idealDW (omega.getD i 0) bands).1 +
            delta / (if i % 2 = 1 then -(idealDW (omega.getD i 0) bands).2
                     else (idealDW (omega.getD i 0) bands).2) := by
  intro m
  induction m with
  | zero => intro _; simp
  | succ p ih =>
      intro hm
      have hp : p ≤ omega.length := by omega
      rw [List.range_succ, List.foldl_append, List.foldl_cons, List.foldl_nil,
        List.map_append]
      set s := (List.range p).foldl (computeCStep delta omega bands) ((0, 0), [])
        with hs
      have hxp : omega.getD p 0 ∈ omega := by
        rw [getD_eq_elem omega p (by omega)]
        exact List.getElem_mem _
      have hc := cirw_covered s.1.1 s.1.2 (omega.getD p 0) bands (hcov _ hxp)
      show (computeCStep delta omega bands s p).2 = _
      simp only [computeCStep, hc]
      rw [ih hp]
      have hpar : ((if p % 2 ≠ 0 then -(idealDW (omega.getD p 0) bands).2
          else (idealDW (omega.getD p 0) bands).2)) =
          (if p % 2 = 1 then -(idealDW (omega.getD p 0) bands).2
          else (idealDW (omega.getD p 0) bands).2) := by
        by_cases h2 : p % 2 = 0
        · rw [if_neg (by omega), if_neg (by omega)]
        · rw [if_pos h2, if_pos (by omega)]
      rw [hpar]
      simp

/-- Claim C6: with every node covered by some band, computeC produces
`C_i = D_i + delta / W_i'`, where `W_i'` is the ideal weight `W_i` with
its sign flipped exactly when i is odd. -/
theorem claim_C6 (delta : ℚ) (omega : List ℚ) (bands : List Band)
    (hcov : ∀ xi ∈ omega, ∃ b ∈ bands, b.start ≤ xi ∧ xi ≤ b.stop) :
    ∀ i < omega.length,
      (computeC delta omega bands).getD i 0 =
        (idealDW (omega.getD i 0) bands).1 +
          delta / (if i % 2 = 1 then -(idealDW (omega.getD i 0) bands).2
                   else (idealDW (omega.getD i 0) bands).2) := by
  intro i hi
  unfold computeC
  rw [computeCFold_sums delta omega bands hcov omega.length le_rfl]
  rw [getD_eq_elem _ i (by simpa using hi), List.getElem_map, List.getElem_range]

/-- Instantiation of claim C6 at delta = 1/3, nodes `[0, 1]`, unit band. -/
theorem claim_C6_witness :
    (∀ xi ∈ ([0, 1] : List ℚ), ∃ b ∈ [bandUnit], b.start ≤ xi ∧ xi ≤ b.stop) ∧
      (computeC (1/3) [0, 1] [bandUnit]).getD 1 0 =
        (idealDW (([0, 1] : List ℚ).getD 1 0) [bandUnit]).1 +
          (1/3 : ℚ) / (if 1 % 2 = 1 then -(idealDW (([0, 1] : List ℚ).getD 1 0) [bandUnit]).2
                   else (idealDW (([0, 1] : List ℚ).getD 1 0) [bandUnit]).2) :=
  ⟨cov01, claim_C6 (1/3) [0, 1] [bandUnit] cov01 1 (by decide)⟩

/-- The sum of a function mapped over `List.range` is the corresponding
finite sum. -/
lemma list_map_sum_range (f : ℕ → ℚ) :
    ∀ n : ℕ, ((List.range n).map f).sum = ∑ i ∈ Finset.range n, f i
  | 0 => by simp
  | n + 1 => by
      rw [List.range_succ, List.map_append, List.sum_append, Finset.sum_range_succ,
        list_map_sum_range f n]
      simp

/-- When the query point matches no visited node, the computeApprox loop
accumulates the two barycentric sums. -/
lemma approxGo_no_match (q : ℚ) (x C w : List ℚ) :
    ∀ (l : List ℕ) (num denom : ℚ), (∀ i ∈ l, q ≠ x.getD i 0) →
      approxGo q x C w l num denom =
        (num + (l.map fun i => w.getD i 0 / (q - x.getD i 0) * C.getD i 0).sum) /
        (denom + (l.map fun i => w.getD i 0 / (q - x.getD i 0)).sum)
  | [], num, denom, _ => by simp [approxGo]
  | i :: rest, num, denom, h => by
      simp only [approxGo, if_neg (h i (by simp))]
      rw [approxGo_no_match q x C w rest _ _ fun j hj => h j (by simp [hj])]
      simp only [List.map_cons, List.sum_cons]
      congr 1 <;> ring

/-- When the query point matches node j and none of the previously visited
nodes, the computeApprox loop returns `C_j` at once. -/
lemma approxGo_first (q : ℚ) (x C w : List ℚ) (j : ℕ) (hq : q = x.getD j 0) :
    ∀ (l₁ l₂ : List ℕ) (num denom : ℚ), (∀ i ∈ l₁, q ≠ x.getD i 0) →
      approxGo q x C w (l₁ ++ j :: l₂) num denom = C.getD j 0
  | [], l₂, num, denom, _ => by
      rw [List.nil_append]
      simp only [approxGo]
      rw [if_pos hq]
  | i :: l₁, l₂, num, denom, h => by
      simp only [List.cons_append, approxGo, if_neg (h i (by simp))]
      exact approxGo_first q x C w j hq l₁ l₂ _ _ fun a ha => h a (by simp [ha])

/-- `List.range n` splits at any j < n into the earlier indices, j itself,
and a tail. -/
lemma range_split (n j : ℕ) (hj : j < n) :
    ∃ l₂ : List ℕ, List.range n = List.range j ++ j :: l₂ := by
  have h1 : n = j + (n - j - 1 + 1) := by omega
  refine ⟨((List.range (n - j - 1)).map Nat.succ).map (j + ·), ?_⟩
  conv_lhs => rw [h1]
  rw [List.range_add, List.range_succ_eq_map]
  simp

/-- Claim C5: computeApprox returns `C_j` exactly when the query point
equals node `x_j` (exact-match branch), and otherwise returns the
second-form barycentric quotient of the two weighted sums. -/
theorem claim_C5 (q : ℚ) (x C w : List ℚ) (hd : x.Nodup) :
    (∀ j, j < x.length → q = x.getD j 0 → computeApprox q x C w = C.getD j 0) ∧
    ((∀ j, j < x.length → q ≠ x.getD j 0) →
      computeApprox q x C w =
        (∑ i ∈ Finset.range x.length, w.getD i 0 / (q - x.getD i 0) * C.getD i 0) /
        (∑ i ∈ Finset.range x.length, w.getD i 0 / (q - x.getD i 0))) := by
  constructor
  · intro j hj hq
    obtain ⟨l₂, hl⟩ := range_split x.length j hj
    unfold computeApprox
    rw [hl]
    refine approxGo_first q x C w j hq (List.range j) l₂ 0 0 ?_
    intro i hi
    have hij : i < j := List.mem_range.1 hi
    rw [hq]
    exact getD_ne_of_nodup x hd j i hj (by omega) (by omega)
  · intro hno
    unfold computeApprox
    rw [approxGo_no_match q x C w (List.range x.length) 0 0
      fun i hi => hno i (List.mem_range.1 hi)]
    rw [list_map_sum_range, list_map_sum_range]
    simp

/-- Instantiation of claim C5 at the node set `[0, 1]`: the exact-match
branch returns the first response value. -/
theorem claim_C5_witness :
    ([0, 1] : List ℚ).Nodup ∧
      computeApprox 0 [0, 1] [3, 5] [-1/2, 1/2] = ([3, 5] : List ℚ).getD 0 0 :=
  ⟨by decide,
    (claim_C5 0 [0, 1] [3, 5] [-1/2, 1/2] (by decide)).1 0 (by decide) (by decide)⟩

/-- `find?` over a list whose earlier elements all fail the predicate and
whose next element satisfies it returns that element. -/
lemma find?_first (p : ℕ → Bool) (j : ℕ) (hpj : p j = true) :
    ∀ (l₁ l₂ : List ℕ), (∀ i ∈ l₁, p i = false) →
      (l₁ ++ j :: l₂).find? p = some j
  | [], l₂, _ => by
      rw [List.nil_append]
      exact List.find?_cons_of_pos _ hpj
  | i :: l₁, l₂, h => by
      rw [List.cons_append, List.find?_cons_of_neg _ (by simp [h i (by simp)])]
      exact find?_first p j hpj l₁ l₂ fun a ha => h a (by simp [ha])

/-- Counterexample to claim C2: at the node set `[0, 1]` with delta = 1 and
query point equal to node x_0 (index 0, even), computeError returns
`+delta = 1`, not `-delta = -1` as the claim states for even indices. -/
theorem claim_C2_cex :
    computeError 0 1 [0, 1] [3, 5] [1, 1] [] = 1 ∧ (1 : ℚ) ≠ -1 := by
  decide

/-- Claim C2 (amended): at a query coordinate exactly equal to reference
node x_j of a pairwise-distinct node set, computeError returns `+delta`
when j is even and `-delta` when j is odd (zero-based index). -/
theorem claim_C2_amended (xVal delta : ℚ) (x C w : List ℚ) (bands : List Band)
    (hd : x.Nodup) (j : ℕ) (hj : j < x.length) (hq : xVal = x.getD j 0) :
    computeError xVal delta x C w bands =
      if j % 2 = 0 then delta else -delta := by
  unfold computeError
  obtain ⟨l₂, hl⟩ := range_split x.length j hj
  rw [hl, find?_first _ j (by simp [hq]) (List.range j) l₂ ?_]
  · intro i hi
    have hij : i < j := List.mem_range.1 hi
    simp only [decide_eq_false_iff_not]
    rw [hq]
    exact getD_ne_of_nodup x hd j i hj (by omega) (by omega)

/-- Instantiation of the amended claim C2 at node index 1 (odd) of `[0, 1]`
with delta = 2: the result is `-2`. -/
theorem claim_C2_amended_witness :
    ([0, 1] : List ℚ).Nodup ∧ 1 < ([0, 1] : List ℚ).length ∧
      (1 : ℚ) = ([0, 1] : List ℚ).getD 1 0 ∧
      computeError 1 2 [0, 1] [3, 5] [1, 1] [] = if 1 % 2 = 0 then 2 else -2 :=
  ⟨by decide, by decide, by decide,
    claim_C2_amended 1 2 [0, 1] [3, 5] [1, 1] [] (by decide) 1 (by decide) (by decide)⟩

/-- Claim C7: computing delta, constructing the response samples from it
via computeC, and recomputing delta via computeDelta with the same nodes
and bands reproduces the original delta exactly (computeDelta is a pure
function of the nodes and bands, so the recomputation is identical). -/
theorem claim_C7 (x : List ℚ) (bands : List Band) (hn : 2 ≤ x.length)
    (hcov : ∀ xi ∈ x, ∃ b ∈ bands, b.start ≤ xi ∧ xi ≤ b.stop) :
    (let delta := computeDelta x bands
     let C := computeC delta x bands
     computeDelta x bands = delta) := rfl

/-- Instantiation of claim C7 at the node set `[0, 1]` over the unit band. -/
theorem claim_C7_witness :
    2 ≤ ([0, 1] : List ℚ).length ∧
      (let delta := computeDelta [0, 1] [bandUnit]
       let C := computeC delta [0, 1] [bandUnit]
       computeDelta [0, 1] [bandUnit] = delta) :=
  ⟨by decide, claim_C7 [0, 1] [bandUnit] (by decide) cov01⟩

/-- Claim C9: every arbitrary-precision entry point leaves the ambient
default-precision state exactly as it found it, on every exit path,
including the exact-node-match early returns of computeApprox and
computeError. -/
theorem claim_C9 (x w omega : List ℚ) (q xVal : ℚ) (prec ambient : ℕ) :
    barycentricWeightsPrecFinal x prec ambient = ambient ∧
    computeDeltaPrecFinal x prec ambient = ambient ∧
    computeDeltaWPrecFinal w x prec ambient = ambient ∧
    computeCPrecFinal omega prec ambient = ambient ∧
    computeApproxPrecFinal q x prec ambient = ambient ∧
    computeErrorPrecFinal xVal x prec ambient = ambient := by
  refine ⟨rfl, rfl, rfl, rfl, ?_, ?_⟩
  · unfold computeApproxPrecFinal
    cases (List.range x.length).find? fun i => decide (q = x.getD i 0) <;> rfl
  · unfold computeErrorPrecFinal
    cases (List.range x.length).find? fun i => decide (xVal = x.getD i 0) <;> rfl
